import Mathlib

/-!
Verification of the mixminion server core (ServerInfo.py and
server/ServerQueue.py) against its natural-language specification.

Texts are modelled as lists of characters; the embedded functions follow
the Python source line by line.  External collaborators (SHA-1, RSA
signature checking) are modelled as function parameters: SHA-1 applied to
equal byte strings yields equal digests, so digest-stability facts are
stated about the exact byte string that is hashed.
-/

/-- A space or a tab, the characters treated as strippable whitespace by
the regexes of ServerInfo.py (`[ \t]`). -/
def isWS (c : Char) : Bool := c == ' ' || c == '\t'

/-- Embedding of `_abnormal_line_ending_re.sub("\n", s)` with pattern
`\r\n?`: every CRLF pair and every lone CR becomes a single LF. -/
def normEndings : List Char → List Char
  | [] => []
  | [c] => if c = '\r' then ['\n'] else [c]
  | c :: d :: rest =>
    if c = '\r' then
      if d = '\n' then '\n' :: normEndings rest
      else '\n' :: normEndings (d :: rest)
    else c :: normEndings (d :: rest)

/-- Split a text at every newline character; a text with no newline is a
single line, and a trailing newline yields a final empty line.  This is
how the multiline regexes of `_cleanForDigest` see their input. -/
def splitLines : List Char → List (List Char)
  | [] => [[]]
  | c :: rest =>
    let r := splitLines rest
    if c = '\n' then [] :: r else (c :: r.headD []) :: r.tail

/-- Inverse of `splitLines`: interleave the lines with newline characters. -/
def joinLines : List (List Char) → List Char
  | [] => []
  | [p] => p
  | p :: q :: r => p ++ '\n' :: joinLines (q :: r)

/-- Drop leading spaces and tabs of one line
(`_leading_whitespace_re.sub("", s)`, per line). -/
def stripLead (l : List Char) : List Char := l.dropWhile isWS

/-- Drop trailing spaces and tabs of one line
(`_trailing_whitespace_re.sub("", s)`, per line). -/
def stripTrail (l : List Char) : List Char := List.rdropWhile isWS l

/-- Both strips, in the order `_cleanForDigest` applies them. -/
def strip2 (l : List Char) : List Char := stripLead (stripTrail l)

/-- `s.endswith("\n")`. -/
def endsNL (l : List Char) : Bool := l.getLast? == some '\n'

/-- Embedding of `_cleanForDigest` (ServerInfo.py lines 575-584): normalize
line endings, strip trailing whitespace per line, strip leading whitespace
per line, and append a newline when the result does not end with one. -/
def cleanForDigest (s : List Char) : List Char :=
  let s1 := normEndings s
  let s2 := joinLines ((splitLines s1).map stripTrail)
  let s3 := joinLines ((splitLines s2).map stripLead)
  if endsNL s3 then s3 else s3 ++ ['\n']

/-- Is the pattern (first argument) an initial segment of the text? -/
def startsWithChars : List Char → List Char → Bool
  | [], _ => true
  | _ :: _, [] => false
  | p :: ps, c :: cs => p == c && startsWithChars ps cs

/-- A line matched by `_special_line_re`, i.e. a line starting with
`Digest:` or `Signature:`. -/
def isSpecialLine (l : List Char) : Bool :=
  startsWithChars ("Digest:".toList) l || startsWithChars ("Signature:".toList) l

/-- The `replaceFn` of `_getDigestImpl`: keep the matched line only up to
and including its first colon. -/
def truncAfterColon (l : List Char) : List Char :=
  l.takeWhile (fun c => c != ':') ++ [':']

/-- `regex.sub(replaceFn, info, 2)` seen through the line decomposition:
blank out the values of the first (at most) two `Digest:`/`Signature:`
lines. -/
def stripFieldsGo : Nat → List (List Char) → List (List Char)
  | _, [] => []
  | 0, ls => ls
  | n + 1, l :: ls =>
    if isSpecialLine l then truncAfterColon l :: stripFieldsGo n ls
    else l :: stripFieldsGo (n + 1) ls

/-- The exact byte string hashed by `_getServerInfoDigestImpl` (ServerInfo.py
lines 586-627): the canonicalized text with the values of the first two
`Digest:`/`Signature:` lines removed.  SHA-1 itself is an external
collaborator; two texts have the same server-descriptor digest whenever
their `serverDigestInput`s are equal. -/
def serverDigestInput (s : List Char) : List Char :=
  joinLines (stripFieldsGo 2 (splitLines (cleanForDigest s)))

/-- `getServerInfoDigest`, parameterized by the external SHA-1. -/
def serverInfoDigest (sha1 : List Char → List Char) (s : List Char) : List Char :=
  sha1 (serverDigestInput s)

/-- Two lines that differ only in trailing whitespace: both are a common
core followed by some run of spaces and tabs. -/
def trailingWSLineVariant (l1 l2 : List Char) : Prop :=
  ∃ core w1 w2, (∀ c ∈ w1, isWS c = true) ∧ (∀ c ∈ w2, isWS c = true) ∧
    l1 = core ++ w1 ∧ l2 = core ++ w2

/-- Transformation (a) of the digest-stability property: the two texts use
LF line endings and differ only by inserted or removed trailing whitespace
on their lines (combine with `eolVariant` for the other terminator forms). -/
def wsVariant (s t : List Char) : Prop :=
  '\r' ∉ s ∧ '\r' ∉ t ∧
    List.Forall₂ trailingWSLineVariant (splitLines s) (splitLines t)

/-- A line terminator: LF, CR, or CRLF. -/
inductive Eol
  | lf
  | cr
  | crlf
deriving DecidableEq

/-- The characters of a line terminator. -/
def Eol.render : Eol → List Char
  | Eol.lf => ['\n']
  | Eol.cr => ['\r']
  | Eol.crlf => ['\r', '\n']

/-- Render a list of (terminator, following line content) segments. -/
def renderSegs : List (Eol × List Char) → List Char
  | [] => []
  | (e, l) :: rest => e.render ++ l ++ renderSegs rest

/-- Line contents contain no terminator characters. -/
def noEolChars (l : List Char) : Prop := ∀ c ∈ l, c ≠ '\n' ∧ c ≠ '\r'

/-- A lone CR directly followed by an LF terminator would re-parse as a
single CRLF terminator; a well-formed segment list avoids that ambiguity. -/
def crOk : List (Eol × List Char) → Prop
  | [] => True
  | [_] => True
  | (e, l) :: (e', l') :: rest =>
    ¬(e = Eol.cr ∧ l = [] ∧ e' = Eol.lf) ∧ crOk ((e', l') :: rest)

/-- Every terminator of the segments replaced by LF. -/
def normSegs : List (Eol × List Char) → List Char
  | [] => []
  | (_, l) :: rest => '\n' :: (l ++ normSegs rest)

/-- Transformation (b): the two texts have the same lines but each line
terminator is independently chosen among LF, CR and CRLF. -/
def eolVariant (s t : List Char) : Prop :=
  ∃ l0 segs1 segs2,
    noEolChars l0 ∧
    (∀ seg ∈ segs1, noEolChars (Prod.snd seg)) ∧
    crOk segs1 ∧ crOk segs2 ∧
    segs1.map Prod.snd = segs2.map Prod.snd ∧
    s = l0 ++ renderSegs segs1 ∧ t = l0 ++ renderSegs segs2

/-- Does the (line-ending-normalized) text end with a line that strips to
nothing, while having at least two lines?  Exactly in this situation does
dropping the final newline change the canonical form. -/
def lastLineBlank (t : List Char) : Bool :=
  let ps := splitLines (normEndings t)
  decide (2 ≤ ps.length) && (strip2 (ps.getLastD [])).isEmpty

/-- Does the text end with two or more consecutive newline characters? -/
def endsTwoNL (l : List Char) : Bool :=
  match l.reverse with
  | '\n' :: '\n' :: _ => true
  | _ => false

/-- An RSA public key as far as `validate` observes it: its modulus length
in bytes, plus an identifier distinguishing distinct keys. -/
structure PubKey where
  keyId : Nat
  modulusBytes : Nat
deriving DecidableEq

/-- The typed values of the `Server` section used by `ServerInfo.validate`.
Times are rationals (Python floats). -/
structure ServerSection where
  descriptorVersion : String
  nickname : String
  identity : PubKey
  digest : List Char
  signature : List Char
  published : ℚ
  validAfter : ℚ
  validUntil : ℚ
  contact : Option String
  comments : Option String
  contactFingerprint : Option String
  packetKey : PubKey

/-- The typed values of the `Incoming/MMTP` section used by `validate`. -/
structure IncomingMMTPSection where
  version : String
  ip : Option String
  hostname : Option String
  keyDigest : List Char

/-- The typed values of the `Outgoing/MMTP` section used by `validate`. -/
structure OutgoingMMTPSection where
  version : String

/-- Python truthiness of an optional string: `None` and `""` are falsy. -/
def optTruthy : Option String → Bool
  | none => false
  | some s => !s.isEmpty

/-- `if server[k] and len(server[k]) > bound`. -/
def optTooLong (o : Option String) (bound : Nat) : Bool :=
  match o with
  | none => false
  | some s => decide (bound < s.length)

/-- Embedding of `ServerInfo.validate` (ServerInfo.py lines 167-240).
`sha1` and `pkCheckSignature` are the external collaborators
`mixminion.Crypto.sha1` and `pk_check_signature` (`none` models a
`CryptoError`); `validatedDigests` is the key set of the optional dict
(absent or empty dict behave identically).  `Except.error m` models
`raise ConfigError(m)`; `Except.ok true` models a normal return with
`_isValidated` set. -/
def validate (sha1 : List Char → List Char)
    (pkCheckSignature : List Char → PubKey → Option (List Char))
    (validatedDigests : List (List Char)) (now : ℚ) (contents : List Char)
    (server : ServerSection) (inMMTP : Option IncomingMMTPSection)
    (outMMTP : Option OutgoingMMTPSection) : Except String Bool :=
  if server.descriptorVersion ≠ "0.2" then
    Except.error "Unrecognized descriptor version"
  else
    let digest := serverInfoDigest sha1 contents
    if digest ≠ server.digest then Except.error "Invalid digest"
    else if validatedDigests.contains digest then Except.ok true
    else if ¬(256 ≤ server.identity.modulusBytes ∧
        server.identity.modulusBytes ≤ 512) then
      Except.error "Invalid length on identity key"
    else if now + 600 < server.published then
      Except.error "Server published in the future"
    else if server.validUntil ≤ server.validAfter then
      Except.error "Server is never valid"
    else if optTooLong server.contact 256 then Except.error "Contact too long"
    else if optTooLong server.comments 1024 then
      Except.error "Comments too long"
    else if optTooLong server.contactFingerprint 128 then
      Except.error "Contact-Fingerprint too long"
    else if server.packetKey.modulusBytes ≠ 256 then
      Except.error "Invalid length on packet key"
    else
      match pkCheckSignature server.signature server.identity with
      | none => Except.error "Invalid signature"
      | some signedDigest =>
        if digest ≠ signedDigest then Except.error "Signed digest is incorrect"
        else
          match inMMTP with
          | some inc =>
            if inc.version ≠ "0.1" then
              Except.error "Unrecognized MMTP descriptor version"
            else if inc.keyDigest.length ≠ 20 then
              Except.error "Invalid key digest"
            else if ¬optTruthy inc.ip ∧ ¬optTruthy inc.hostname then
              Except.error "Incoming/MMTP section has neither IP nor hostname"
            else
              match outMMTP with
              | some out =>
                if out.version ≠ "0.1" then
                  Except.error "Unrecognized MMTP descriptor version"
                else Except.ok true
              | none => Except.ok true
          | none =>
            match outMMTP with
            | some out =>
              if out.version ≠ "0.1" then
                Except.error "Unrecognized MMTP descriptor version"
              else Except.ok true
            | none => Except.ok true

/-- The `Version` values that `getCaps` consults, one per optional section;
`none` models an absent section (or an absent `Version` key). -/
structure CapsView where
  incomingMMTPVersion : Option String
  outgoingMMTPVersion : Option String
  deliveryMBOXVersion : Option String
  deliverySMTPVersion : Option String
  deliveryFragmentedVersion : Option String

/-- Embedding of `ServerInfo.getCaps` (ServerInfo.py lines 335-349). -/
def getCaps (d : CapsView) : List String :=
  if !optTruthy d.incomingMMTPVersion then []
  else
    (if optTruthy d.deliveryMBOXVersion then ["mbox"] else []) ++
    (if optTruthy d.deliverySMTPVersion then ["smtp"] else []) ++
    (if optTruthy d.outgoingMMTPVersion then ["relay"] else []) ++
    (if optTruthy d.deliveryFragmentedVersion then ["frag"] else [])

/-- The fields of a ServerInfo consulted by `isSupersededBy` and
`isNewerThan`. -/
structure SInfo where
  nickname : List Char
  published : ℚ
  validAfter : ℚ
  validUntil : ℚ

/-- `self.getNickname().lower()`. -/
def lowerNick (s : SInfo) : List Char := s.nickname.map Char.toLower

/-- Modelled from the spec: `IntervalSet` lives in mixminion.Common, which
is not part of this repository snapshot.  Per the spec it is a set of time
points supporting union, difference and an emptiness test, built here from
the closed validity interval `[Valid-After, Valid-Until]`;
`getIntervalSet` returns `IntervalSet([(Valid-After, Valid-Until)])`. -/
def getIntervalSet (s : SInfo) : Set ℚ := Set.Icc s.validAfter s.validUntil

/-- `ServerInfo.isNewerThan` (ServerInfo.py lines 395-400) applied to
another descriptor: strict comparison of `Published`. -/
def isNewerThan (a b : SInfo) : Prop := b.published < a.published

/-- The subtraction loop of `isSupersededBy`: subtract the interval set of
every strictly newer descriptor with the same lower-cased nickname. -/
def supersededLoop (self : SInfo) (valid : Set ℚ) : List SInfo → Set ℚ
  | [] => valid
  | o :: rest =>
    supersededLoop self
      (if self.published < o.published ∧ lowerNick o = lowerNick self then
        valid \ getIntervalSet o
      else valid) rest

/-- Embedding of `ServerInfo.isSupersededBy` (ServerInfo.py lines 402-418):
run the subtraction loop starting from this descriptor's interval set and
test the remainder for emptiness. -/
def isSupersededBy (self : SInfo) (others : List SInfo) : Prop :=
  supersededLoop self (getIntervalSet self) others = ∅

/-- The retry loop of `_DeliveryState.getNextAttempt` (ServerQueue.py lines
347-355): accumulate the schedule intervals onto `attempt` and return the
first value strictly after `last`.  Time values (Python floats) are
modelled by any linearly ordered additive commutative group. -/
def getNextAttemptLoop {α : Type} [LinearOrderedAddCommGroup α]
    (last : α) (attempt : α) : List α → Option α
  | [] => none
  | interval :: rest =>
    if last < attempt + interval then some (attempt + interval)
    else getNextAttemptLoop last (attempt + interval) rest

/-- Embedding of `_DeliveryState.getNextAttempt` (ServerQueue.py lines
324-355) with an explicit current time `now` (the `now or time.time()`
defaulting is environment interaction): immediately `now` when the message
was never attempted, otherwise the first scheduled time after the last
attempt, or `none` when the schedule is exhausted. -/
def getNextAttempt {α : Type} [LinearOrderedAddCommGroup α]
    (retrySchedule : List α) (queuedTime : α) (lastAttempt : Option α)
    (now : α) : Option α :=
  match lastAttempt with
  | none => some now
  | some last => getNextAttemptLoop last queuedTime retrySchedule

/-- The candidate delivery times `queuedTime + schedule[0] + ... +
schedule[k]` over the prefixes of the schedule. -/
def prefixSums {α : Type} [LinearOrderedAddCommGroup α] (base : α) :
    List α → List α
  | [] => []
  | interval :: rest => (base + interval) :: prefixSums (base + interval) rest

/-- The persistent fields of a `_DeliveryState` (`queuedTime`,
`lastAttempt`); integer-valued times suffice for the concrete runs below. -/
structure DState where
  queuedTime : Int
  lastAttempt : Option Int
deriving DecidableEq

/-- The queue directory as `DeliveryQueue._loadState` sees it: for each
`msg_<h>` file its handle and whether its pickled content is an obsolete
0.0.3-format 4-tuple, and for each `meta_<h>` file its handle and pickled
`_DeliveryState`. -/
structure DQDir where
  msgs : List (Nat × Bool)
  metas : List (Nat × DState)
deriving DecidableEq

/-- Look up the metadata file of a handle. -/
def findMeta (h : Nat) : List (Nat × DState) → Option DState
  | [] => none
  | (h', st) :: rest => if h' = h then some st else findMeta h rest

/-- Remove the `msg_<h>` file (rename to `rmv_<h>`) as
`self.removeMessage(h)` does on the obsolete-format path. -/
def removeMsgFile (h : Nat) (msgs : List (Nat × Bool)) : List (Nat × Bool) :=
  msgs.filter (fun m => m.1 ≠ h)

/-- First loop of `_loadState` (ServerQueue.py lines 456-473): for each
message handle, load its metadata if the `meta_` file exists; otherwise
remove obsolete-format messages, or synthesize `_DeliveryState(now)` and
write it to disk.  Returns the accumulated `deliveryState` dict and the
updated directory. -/
def loadStateLoop (now : Int) : List (Nat × Bool) → DQDir →
    List (Nat × DState) → List (Nat × DState) × DQDir
  | [], d, ds => (ds, d)
  | (h, obsolete) :: rest, d, ds =>
    match findMeta h d.metas with
    | some st => loadStateLoop now rest d (ds ++ [(h, st)])
    | none =>
      if obsolete then
        loadStateLoop now rest ⟨removeMsgFile h d.msgs, d.metas⟩ ds
      else
        loadStateLoop now rest ⟨d.msgs, d.metas ++ [(h, ⟨now, none⟩)]⟩
          (ds ++ [(h, ⟨now, none⟩)])

/-- Second loop of `_loadState` (ServerQueue.py lines 475-480): scan the
directory listing for `meta_` files; the orphan test (line 478) only
guards a warning, and `os.unlink` (line 480) runs for every `meta_` file,
so none survives. -/
def scanMetaFiles (deliveryState : List (Nat × DState)) :
    List (Nat × DState) → List (Nat × DState)
  | [] => []
  | (_, _) :: rest => scanMetaFiles deliveryState rest

/-- The result of `_loadState`: the in-memory `deliveryState` dict and the
files remaining on disk. -/
structure LoadStateResult where
  deliveryState : List (Nat × DState)
  msgsOnDisk : List (Nat × Bool)
  metasOnDisk : List (Nat × DState)
deriving DecidableEq

/-- Embedding of `DeliveryQueue._loadState` (ServerQueue.py lines 452-480). -/
def loadState (now : Int) (d : DQDir) : LoadStateResult :=
  let r := loadStateLoop now d.msgs d []
  ⟨r.1, r.2.msgs, scanMetaFiles r.1 r.2.metas⟩

/-- The in-memory state of a `DeliveryQueue` touched by
`removeExpiredMessages` and `removeMessage`: the `msg_` files on disk, the
tombstoned files, and the `pending`, `sendable`, `deliveryState` and
`nextAttempt` structures. -/
structure DQState where
  msgs : List Nat
  rmv : List Nat
  pending : List (Nat × Int)
  sendable : List Nat
  deliveryState : List (Nat × DState)
  nextAttempt : List (Nat × Option Int)
deriving DecidableEq

/-- Association-list lookup for the `nextAttempt` dict. -/
def lookupNA (h : Nat) : List (Nat × Option Int) → Option (Option Int)
  | [] => none
  | (h', v) :: rest => if h' = h then some v else lookupNA h rest

/-- Embedding of `DeliveryQueue.removeMessage` (ServerQueue.py lines
634-662): tombstone the `msg_` file, and delete the handle from `pending`,
`deliveryState`, `nextAttempt` and `sendable` (each deletion logs instead
of raising when the handle is absent; `sendable` drops its first
occurrence of the handle). -/
def removeMessage (st : DQState) (h : Nat) : DQState :=
  { msgs := st.msgs.erase h
    rmv := if h ∈ st.msgs then st.rmv ++ [h] else st.rmv
    pending := st.pending.filter (fun p => p.1 ≠ h)
    sendable := st.sendable.erase h
    deliveryState := st.deliveryState.filter (fun p => p.1 ≠ h)
    nextAttempt := st.nextAttempt.filter (fun p => p.1 ≠ h) }

/-- The `for h in self.sendable` loop of `removeExpiredMessages`: a CPython
list iterator keeps a position index into the (mutated) list, so after the
current element is removed the element that slid into its place is
skipped.  A missing `nextAttempt` key would raise (`none` result). -/
def removeExpiredLoop (j : Nat) (st : DQState) : Option DQState :=
  if hj : j < st.sendable.length then
    match lookupNA st.sendable[j] st.nextAttempt with
    | none => none
    | some na =>
      if na = none then removeExpiredLoop (j + 1) (removeMessage st st.sendable[j])
      else removeExpiredLoop (j + 1) st
  else some st
termination_by st.sendable.length - j
decreasing_by
  · have hmem : st.sendable[j] ∈ st.sendable := List.getElem_mem hj
    simp only [removeMessage, List.length_erase_of_mem hmem]
    omega
  · omega


/-- Embedding of `DeliveryQueue.removeExpiredMessages` (ServerQueue.py
lines 571-583). -/
def removeExpiredMessages (st : DQState) : Option DQState :=
  removeExpiredLoop 0 st

/-- Fuel-driven binary logarithm (the fuel argument only drives structural
recursion; `nlog2 n` below supplies enough of it). -/
def nlog2Go : Nat → Nat → Nat
  | 0, _ => 0
  | fuel + 1, n => if 2 ≤ n then nlog2Go fuel (n / 2) + 1 else 0

/-- `⌊log2 n⌋` for positive `n`. -/
def nlog2 (n : Nat) : Nat := nlog2Go n n

/-- Number of binary digits of `n` (0 for 0). -/
def bitLen (n : Nat) : Nat := if n = 0 then 0 else nlog2 n + 1

/-- Round a nonnegative integer to at most 53 significant bits, to nearest
with ties to even (the IEEE-754 binary64 rounding of the integer): the
result `(m, k)` represents the value `m * 2 ^ k`. -/
def roundSig53 (a : Nat) : Nat × Nat :=
  let L := bitLen a
  if L ≤ 53 then (a, 0)
  else
    let s := L - 53
    let q := a / 2 ^ s
    let r := a % 2 ^ s
    let half := 2 ^ (s - 1)
    let q' :=
      if half < r then q + 1
      else if r < half then q
      else if q % 2 = 0 then q else q + 1
    (q', s)

/-- The integer significand of the binary64 value written `0.7` in the
source (`sendRate=.7`): `7/10` lies in `[1/2, 1)`, so the double equals
`sendRateSig * 2 ^ (-53)` where `sendRateSig` is `7 * 2 ^ 53 / 10` rounded
to nearest with ties to even. -/
def sendRateSig : Nat :=
  let a := 7 * 2 ^ 53
  let q := a / 10
  let r := a % 10
  if 5 < r then q + 1 else if r < 5 then q else if q % 2 = 0 then q else q + 1

/-- `int(pool * self.sendRate)` for `sendRate = 0.7` under binary64
arithmetic, for `pool < 2 ^ 53` (so `float(pool)` is exact): the exact
product is `pool * sendRateSig * 2 ^ (-53)`; the double multiplication
rounds it to 53 significant bits, and `int()` truncates the positive
result toward zero. -/
def pyIntTimesSendRate (pool : Nat) : Nat :=
  let p := roundSig53 (pool * sendRateSig)
  p.1 / 2 ^ (53 - p.2)

/-- Embedding of `CottrellMixPool._getBatchSize` (ServerQueue.py lines
807-814) at the parameters fixed by the claim
(`minPool=6, minSend=1, sendRate=0.7`); `pool` is `self.count()`. -/
def getBatchSize (minPool minSend pool : Nat) : Nat :=
  if minPool + minSend ≤ pool then
    min (pool - minPool) (max 1 (pyIntTimesSendRate pool))
  else 0

theorem normEndings_nil : normEndings [] = [] := rfl

theorem normEndings_single (c : Char) :
    normEndings [c] = if c = '\r' then ['\n'] else [c] := rfl

theorem normEndings_cons₂ (c d : Char) (rest : List Char) :
    normEndings (c :: d :: rest) =
      if c = '\r' then
        if d = '\n' then '\n' :: normEndings rest
        else '\n' :: normEndings (d :: rest)
      else c :: normEndings (d :: rest) := rfl

theorem normEndings_cons_ne (c : Char) (l : List Char) (hc : c ≠ '\r') :
    normEndings (c :: l) = c :: normEndings l := by
  cases l with
  | nil => simp [normEndings_single, normEndings_nil, hc]
  | cons d rest => simp [normEndings_cons₂, hc]

theorem normEndings_cr_cons (d : Char) (l : List Char) (hd : d ≠ '\n') :
    normEndings ('\r' :: d :: l) = '\n' :: normEndings (d :: l) := by
  simp [normEndings_cons₂, hd]

theorem cr_not_mem_normEndings (l : List Char) : '\r' ∉ normEndings l := by
  induction l using normEndings.induct <;>
    simp_all [normEndings_nil, normEndings_single, normEndings_cons₂] <;>
    exact Ne.symm (by assumption)

theorem normEndings_of_not_mem (l : List Char) (h : '\r' ∉ l) :
    normEndings l = l := by
  induction l using normEndings.induct <;>
    simp_all [normEndings_nil, normEndings_single, normEndings_cons₂]

theorem splitLines_nil : splitLines [] = [[]] := rfl

theorem splitLines_cons (c : Char) (rest : List Char) :
    splitLines (c :: rest) =
      if c = '\n' then [] :: splitLines rest
      else (c :: (splitLines rest).headD []) :: (splitLines rest).tail := rfl

theorem splitLines_ne_nil (l : List Char) : splitLines l ≠ [] := by
  cases l with
  | nil => simp [splitLines_nil]
  | cons c rest =>
    rw [splitLines_cons]
    by_cases h : c = '\n' <;> simp [h]

theorem nl_not_mem_of_mem_splitLines (l : List Char) (p : List Char)
    (hp : p ∈ splitLines l) : '\n' ∉ p := by
  induction l generalizing p with
  | nil =>
    rw [splitLines_nil] at hp
    simp at hp
    simp [hp]
  | cons c rest ih =>
    rw [splitLines_cons] at hp
    by_cases h : c = '\n'
    · simp [h] at hp
      rcases hp with hp | hp
      · simp [hp]
      · exact ih p hp
    · simp [h] at hp
      obtain ⟨q, qs, hq⟩ : ∃ q qs, splitLines rest = q :: qs := by
        cases hr : splitLines rest with
        | nil => exact absurd hr (splitLines_ne_nil rest)
        | cons q qs => exact ⟨q, qs, rfl⟩
      rw [hq] at hp
      simp at hp
      rcases hp with hp | hp
      · subst hp
        have hq' : '\n' ∉ q := ih q (by rw [hq]; exact List.mem_cons_self q qs)
        simp [hq']
        exact fun hh => h hh.symm
      · exact ih p (by rw [hq]; exact List.mem_cons_of_mem q hp)

theorem mem_of_mem_splitLines (l : List Char) (p : List Char) (c : Char)
    (hc : c ∈ p) (hp : p ∈ splitLines l) : c ∈ l := by
  induction l generalizing p with
  | nil =>
    rw [splitLines_nil] at hp
    simp at hp
    subst hp
    simp at hc
  | cons a rest ih =>
    rw [splitLines_cons] at hp
    by_cases h : a = '\n'
    · simp [h] at hp
      rcases hp with hp | hp
      · subst hp; simp at hc
      · exact List.mem_cons_of_mem a (ih p hc hp)
    · simp [h] at hp
      obtain ⟨q, qs, hq⟩ : ∃ q qs, splitLines rest = q :: qs := by
        cases hr : splitLines rest with
        | nil => exact absurd hr (splitLines_ne_nil rest)
        | cons q qs => exact ⟨q, qs, rfl⟩
      rw [hq] at hp
      simp at hp
      rcases hp with hp | hp
      · subst hp
        rcases List.mem_cons.1 hc with hc | hc
        · simp [hc]
        · exact List.mem_cons_of_mem a
            (ih q hc (by rw [hq]; exact List.mem_cons_self q qs))
      · exact List.mem_cons_of_mem a
          (ih p hc (by rw [hq]; exact List.mem_cons_of_mem q hp))

theorem splitLines_of_no_nl (p : List Char) (h : '\n' ∉ p) :
    splitLines p = [p] := by
  induction p with
  | nil => simp [splitLines_nil]
  | cons c rest ih =>
    have h1 : ¬c = '\n' := fun hh => h (by simp [hh])
    have h2 : '\n' ∉ rest := fun hh => h (List.mem_cons_of_mem c hh)
    rw [splitLines_cons, if_neg h1, ih h2]
    simp

theorem splitLines_append_cons_nl (p : List Char) (X : List Char)
    (h : '\n' ∉ p) : splitLines (p ++ '\n' :: X) = p :: splitLines X := by
  induction p with
  | nil => simp [splitLines_cons]
  | cons c rest ih =>
    have h1 : ¬c = '\n' := fun hh => h (by simp [hh])
    have h2 : '\n' ∉ rest := fun hh => h (List.mem_cons_of_mem c hh)
    rw [List.cons_append, splitLines_cons, if_neg h1, ih h2]
    simp

theorem joinLines_nil : joinLines [] = [] := rfl

theorem joinLines_single (p : List Char) : joinLines [p] = p := rfl

theorem joinLines_cons_ne (p : List Char) (ps : List (List Char))
    (h : ps ≠ []) : joinLines (p :: ps) = p ++ '\n' :: joinLines ps := by
  cases ps with
  | nil => exact absurd rfl h
  | cons q qs => rfl

theorem split_join (ps : List (List Char)) (h0 : ps ≠ [])
    (h1 : ∀ p ∈ ps, '\n' ∉ p) : splitLines (joinLines ps) = ps := by
  induction ps with
  | nil => exact absurd rfl h0
  | cons p ps' ih =>
    cases ps' with
    | nil => exact splitLines_of_no_nl p (h1 p (List.mem_cons_self p []))
    | cons q qs =>
      rw [joinLines_cons_ne p (q :: qs) (by simp),
        splitLines_append_cons_nl _ _ (h1 p (List.mem_cons_self _ _)),
        ih (by simp) (fun r hr => h1 r (List.mem_cons_of_mem p hr))]

theorem splitLines_append_nl (l : List Char) :
    splitLines (l ++ ['\n']) = splitLines l ++ [[]] := by
  induction l with
  | nil => simp [splitLines_cons, splitLines_nil]
  | cons c rest ih =>
    by_cases h : c = '\n'
    · subst h
      rw [List.cons_append, splitLines_cons, if_pos rfl, ih,
        splitLines_cons, if_pos rfl]
      simp
    · obtain ⟨q, qs, hq⟩ : ∃ q qs, splitLines rest = q :: qs := by
        cases hr : splitLines rest with
        | nil => exact absurd hr (splitLines_ne_nil rest)
        | cons q qs => exact ⟨q, qs, rfl⟩
      rw [List.cons_append, splitLines_cons, if_neg h, ih, hq,
        splitLines_cons, if_neg h, hq]
      simp

theorem joinLines_append_single (ps : List (List Char)) (q : List Char)
    (h : ps ≠ []) : joinLines (ps ++ [q]) = joinLines ps ++ '\n' :: q := by
  induction ps with
  | nil => exact absurd rfl h
  | cons p ps' ih =>
    cases ps' with
    | nil => simp [joinLines]
    | cons r rs =>
      rw [List.cons_append, joinLines_cons_ne p (r :: rs ++ [q]) (by simp),
        joinLines_cons_ne p (r :: rs) (by simp), ih (by simp)]
      simp

theorem mem_joinLines (ps : List (List Char)) (c : Char)
    (hc : c ∈ joinLines ps) : c = '\n' ∨ ∃ p ∈ ps, c ∈ p := by
  induction ps with
  | nil => simp [joinLines_nil] at hc
  | cons p ps' ih =>
    cases ps' with
    | nil =>
      rw [joinLines_single] at hc
      exact Or.inr ⟨p, List.mem_cons_self p [], hc⟩
    | cons q qs =>
      rw [joinLines_cons_ne p (q :: qs) (by simp)] at hc
      rcases List.mem_append.1 hc with hc | hc
      · exact Or.inr ⟨p, List.mem_cons_self _ _, hc⟩
      · rcases List.mem_cons.1 hc with hc | hc
        · exact Or.inl hc
        · rcases ih hc with hc | ⟨r, hr, hcr⟩
          · exact Or.inl hc
          · exact Or.inr ⟨r, List.mem_cons_of_mem p hr, hcr⟩

theorem joinLines_eq_nil_iff (ps : List (List Char)) :
    joinLines ps = [] ↔ ps = [] ∨ ps = [[]] := by
  cases ps with
  | nil => simp [joinLines_nil]
  | cons p ps' =>
    cases ps' with
    | nil => simp [joinLines_single]
    | cons q qs => simp [joinLines]

theorem endsNL_append_nl (l : List Char) : endsNL (l ++ ['\n']) = true := by
  simp [endsNL, List.getLast?_concat]

theorem mem_of_mem_stripLead (l : List Char) (c : Char)
    (h : c ∈ stripLead l) : c ∈ l := by
  rw [← List.takeWhile_append_dropWhile isWS l]
  exact List.mem_append_right _ h

theorem mem_of_mem_stripTrail (l : List Char) (c : Char)
    (h : c ∈ stripTrail l) : c ∈ l := by
  unfold stripTrail List.rdropWhile at h
  rw [List.mem_reverse] at h
  rw [← List.mem_reverse, ← List.takeWhile_append_dropWhile isWS l.reverse]
  exact List.mem_append_right _ h

theorem mem_of_mem_strip2 (l : List Char) (c : Char)
    (h : c ∈ strip2 l) : c ∈ l :=
  mem_of_mem_stripTrail l c (mem_of_mem_stripLead (stripTrail l) c h)

theorem stripLead_stripLead (l : List Char) :
    stripLead (stripLead l) = stripLead l :=
  List.dropWhile_idempotent isWS l

theorem stripTrail_strip2 (l : List Char) :
    stripTrail (strip2 l) = strip2 l := by
  unfold strip2 stripLead stripTrail
  apply List.rdropWhile_eq_self_iff.mpr
  intro hl
  have hqne : List.rdropWhile isWS l ≠ [] := by
    intro hqq
    rw [hqq] at hl
    simp at hl
  have hlast : ¬isWS ((List.rdropWhile isWS l).getLast hqne) = true :=
    List.rdropWhile_last_not isWS l hqne
  have h2 : (List.dropWhile isWS (List.rdropWhile isWS l)).getLast? =
      (List.rdropWhile isWS l).getLast? := by
    conv_rhs =>
      rw [← List.takeWhile_append_dropWhile isWS (List.rdropWhile isWS l)]
    exact (List.getLast?_append_of_ne_nil _ hl).symm
  rw [List.getLast?_eq_getLast_of_ne_nil hl,
    List.getLast?_eq_getLast_of_ne_nil hqne] at h2
  rw [Option.some_inj.1 h2]
  exact hlast

theorem stripLead_strip2 (l : List Char) :
    stripLead (strip2 l) = strip2 l :=
  stripLead_stripLead (stripTrail l)

theorem strip2_strip2 (l : List Char) : strip2 (strip2 l) = strip2 l := by
  unfold strip2
  rw [show stripTrail (stripLead (stripTrail l)) = stripLead (stripTrail l)
    from stripTrail_strip2 l]
  exact stripLead_stripLead (stripTrail l)

theorem strip2_nil : strip2 [] = [] := rfl

theorem map_eq_self_of_fixed {α : Type} {f : α → α} (l : List α)
    (h : ∀ p ∈ l, f p = p) : l.map f = l := by
  conv_rhs => rw [← List.map_id l]
  exact List.map_congr_left h

theorem cleanForDigest_eq_pipeline (s : List Char) :
    cleanForDigest s =
      (if endsNL (joinLines ((splitLines (normEndings s)).map strip2))
       then joinLines ((splitLines (normEndings s)).map strip2)
       else joinLines ((splitLines (normEndings s)).map strip2) ++ ['\n']) := by
  have hsplit :
      splitLines (joinLines ((splitLines (normEndings s)).map stripTrail)) =
        (splitLines (normEndings s)).map stripTrail := by
    apply split_join
    · intro hmap
      rw [List.map_eq_nil_iff] at hmap
      exact splitLines_ne_nil _ hmap
    · intro p hp
      rcases List.mem_map.1 hp with ⟨q, hq, rfl⟩
      intro hmem
      exact nl_not_mem_of_mem_splitLines _ q hq (mem_of_mem_stripTrail _ _ hmem)
  show (if endsNL (joinLines ((splitLines (joinLines ((splitLines
      (normEndings s)).map stripTrail))).map stripLead)) then _ else _) = _
  rw [hsplit, List.map_map]
  rfl

theorem cleanForDigest_of_fixed (qs : List (List Char)) (hne : qs ≠ [])
    (hnl : ∀ p ∈ qs, '\n' ∉ p) (hcr : ∀ p ∈ qs, '\r' ∉ p)
    (hlead : ∀ p ∈ qs, stripLead p = p) (htrail : ∀ p ∈ qs, stripTrail p = p)
    (hends : endsNL (joinLines qs) = true) :
    cleanForDigest (joinLines qs) = joinLines qs := by
  have hcrj : '\r' ∉ joinLines qs := by
    intro hmem
    rcases mem_joinLines qs '\r' hmem with h | ⟨p, hp, hcp⟩
    · exact absurd h (by decide)
    · exact hcr p hp hcp
  have hfix : ∀ p ∈ qs, strip2 p = p := by
    intro p hp
    unfold strip2
    rw [htrail p hp, hlead p hp]
  rw [cleanForDigest_eq_pipeline (joinLines qs),
    normEndings_of_not_mem _ hcrj, split_join qs hne hnl,
    map_eq_self_of_fixed qs hfix, if_pos hends]

/-- C5: the canonicalizer of ServerInfo.py is idempotent: applying
`_cleanForDigest` to its own output returns that output unchanged, for
every byte string. -/
theorem c5_cleanForDigest_idempotent (s : List Char) :
    cleanForDigest (cleanForDigest s) = cleanForDigest s := by
  have hne : (splitLines (normEndings s)).map strip2 ≠ [] := by
    intro hmap
    rw [List.map_eq_nil_iff] at hmap
    exact splitLines_ne_nil _ hmap
  have hnl : ∀ p ∈ (splitLines (normEndings s)).map strip2, '\n' ∉ p := by
    intro p hp hmem
    rcases List.mem_map.1 hp with ⟨q, hq, rfl⟩
    exact nl_not_mem_of_mem_splitLines _ q hq (mem_of_mem_strip2 _ _ hmem)
  have hcr : ∀ p ∈ (splitLines (normEndings s)).map strip2, '\r' ∉ p := by
    intro p hp hmem
    rcases List.mem_map.1 hp with ⟨q, hq, rfl⟩
    exact cr_not_mem_normEndings s
      (mem_of_mem_splitLines _ q '\r' (mem_of_mem_strip2 _ _ hmem) hq)
  have hlead : ∀ p ∈ (splitLines (normEndings s)).map strip2,
      stripLead p = p := by
    intro p hp
    rcases List.mem_map.1 hp with ⟨q, hq, rfl⟩
    exact stripLead_strip2 q
  have htrail : ∀ p ∈ (splitLines (normEndings s)).map strip2,
      stripTrail p = p := by
    intro p hp
    rcases List.mem_map.1 hp with ⟨q, hq, rfl⟩
    exact stripTrail_strip2 q
  rw [cleanForDigest_eq_pipeline s]
  cases hend : endsNL (joinLines ((splitLines (normEndings s)).map strip2)) with
  | true =>
    simp only [reduceIte]
    exact cleanForDigest_of_fixed _ hne hnl hcr hlead htrail hend
  | false =>
    simp only [Bool.false_eq_true, reduceIte]
    rw [show joinLines ((splitLines (normEndings s)).map strip2) ++ ['\n'] =
        joinLines ((splitLines (normEndings s)).map strip2 ++ [[]])
      from (joinLines_append_single _ [] hne).symm]
    apply cleanForDigest_of_fixed
    · simp
    · intro p hp
      rcases List.mem_append.1 hp with hp | hp
      · exact hnl p hp
      · simp at hp
        simp [hp]
    · intro p hp
      rcases List.mem_append.1 hp with hp | hp
      · exact hcr p hp
      · simp at hp
        simp [hp]
    · intro p hp
      rcases List.mem_append.1 hp with hp | hp
      · exact hlead p hp
      · simp at hp
        simp [hp, stripLead]
    · intro p hp
      rcases List.mem_append.1 hp with hp | hp
      · exact htrail p hp
      · simp at hp
        simp [hp, stripTrail]
    · rw [joinLines_append_single _ [] hne]
      exact endsNL_append_nl _

/-- C4 counterexample: on the input `"a\n\n"` the canonicalizer returns
`"a\n\n"` unchanged, which ends with two consecutive newline characters,
so the output does not end with exactly one trailing newline. -/
theorem c4_counterexample :
    cleanForDigest ['a', '\n', '\n'] = ['a', '\n', '\n'] ∧
    ¬(endsNL (cleanForDigest ['a', '\n', '\n']) = true ∧
      endsTwoNL (cleanForDigest ['a', '\n', '\n']) = false) := by decide

/-- C4 (amended): for every input string, the output of `_cleanForDigest`
ends with at least one trailing newline (it appends one when missing, but
never removes duplicate trailing newlines). -/
theorem c4_amended_ends_with_newline (s : List Char) :
    endsNL (cleanForDigest s) = true := by
  simp only [cleanForDigest]
  split
  · assumption
  · exact endsNL_append_nl _

theorem prefixSums_le {α : Type} [LinearOrderedAddCommGroup α] :
    ∀ (l : List α) (base : α), (∀ i ∈ l, 0 ≤ i) →
      ∀ s ∈ prefixSums base l, base ≤ s := by
  intro l
  induction l with
  | nil =>
    intro base hnn s hs
    simp [prefixSums] at hs
  | cons i rest ih =>
    intro base hnn s hs
    have hbase : base ≤ base + i := le_add_of_nonneg_right (hnn i (by simp))
    rcases List.mem_cons.1 hs with hs | hs
    · exact hs ▸ hbase
    · exact le_trans hbase
        (ih (base + i) (fun j hj => hnn j (List.mem_cons_of_mem i hj)) s hs)

theorem getNextAttemptLoop_spec {α : Type} [LinearOrderedAddCommGroup α]
    (last : α) :
    ∀ (l : List α) (base : α), (∀ i ∈ l, 0 ≤ i) →
      (getNextAttemptLoop last base l = none ↔
        ∀ s ∈ prefixSums base l, s ≤ last) ∧
      (∀ v, getNextAttemptLoop last base l = some v →
        v ∈ prefixSums base l ∧ last < v ∧
          ∀ s ∈ prefixSums base l, last < s → v ≤ s) := by
  intro l
  induction l with
  | nil =>
    intro base hnn
    refine ⟨by simp [getNextAttemptLoop, prefixSums], ?_⟩
    intro v hv
    simp [getNextAttemptLoop] at hv
  | cons i rest ih =>
    intro base hnn
    have hnn' : ∀ j ∈ rest, 0 ≤ j := fun j hj => hnn j (List.mem_cons_of_mem i hj)
    by_cases hcond : last < base + i
    · constructor
      · constructor
        · intro h
          rw [show getNextAttemptLoop last base (i :: rest) = some (base + i)
            from by simp [getNextAttemptLoop, hcond]] at h
          exact Option.noConfusion h
        · intro hall
          exact absurd (hall (base + i) (by simp [prefixSums]))
            (not_le.2 hcond)
      · intro v hv
        rw [show getNextAttemptLoop last base (i :: rest) = some (base + i)
          from by simp [getNextAttemptLoop, hcond]] at hv
        have hveq : v = base + i := (Option.some_inj.1 hv).symm
        subst hveq
        refine ⟨by simp [prefixSums], hcond, ?_⟩
        intro s hs _
        rcases List.mem_cons.1 (by simpa [prefixSums] using hs) with hs' | hs'
        · exact le_of_eq hs'.symm
        · exact prefixSums_le rest (base + i) hnn' s hs'
    · have heq : getNextAttemptLoop last base (i :: rest) =
          getNextAttemptLoop last (base + i) rest := by
        simp [getNextAttemptLoop, hcond]
      obtain ⟨ih1, ih2⟩ := ih (base + i) hnn'
      constructor
      · rw [heq, ih1]
        constructor
        · intro hall s hs
          rcases List.mem_cons.1 (by simpa [prefixSums] using hs) with hs' | hs'
          · exact hs' ▸ not_lt.1 hcond
          · exact hall s hs'
        · intro hall s hs
          exact hall s (by simp [prefixSums, hs])
      · intro v hv
        rw [heq] at hv
        obtain ⟨hmem, hlt, hmin⟩ := ih2 v hv
        refine ⟨by simp [prefixSums, hmem], hlt, ?_⟩
        intro s hs hslt
        rcases List.mem_cons.1 (by simpa [prefixSums] using hs) with hs' | hs'
        · exact absurd (hs' ▸ hslt) hcond
        · exact hmin s hs' hslt

/-- C1: `_DeliveryState.getNextAttempt` returns `now` when no delivery was
ever attempted; otherwise, for a schedule of non-negative intervals, it
returns `none` exactly when no prefix sum `queuedTime + schedule[0] + ...
+ schedule[k]` exceeds `lastAttempt`, and any returned time is the
smallest such prefix sum strictly greater than `lastAttempt`. -/
theorem c1_getNextAttempt_characterization (α : Type)
    [LinearOrderedAddCommGroup α] (retrySchedule : List α)
    (queuedTime last now : α) (hnn : ∀ i ∈ retrySchedule, 0 ≤ i) :
    getNextAttempt retrySchedule queuedTime none now = some now ∧
    (getNextAttempt retrySchedule queuedTime (some last) now = none ↔
      ∀ s ∈ prefixSums queuedTime retrySchedule, s ≤ last) ∧
    (∀ v, getNextAttempt retrySchedule queuedTime (some last) now = some v →
      v ∈ prefixSums queuedTime retrySchedule ∧ last < v ∧
        ∀ s ∈ prefixSums queuedTime retrySchedule, last < s → v ≤ s) := by
  obtain ⟨h1, h2⟩ := getNextAttemptLoop_spec last retrySchedule queuedTime hnn
  exact ⟨rfl, h1, h2⟩

/-- Witness for C1 at the claim's concrete inputs: schedule `[10, 20, 40]`
with `queuedTime = 0` gives next attempt `30` after a last attempt at `15`
and `none` after a last attempt at `70`; an unattempted message is ready
at `now`. -/
theorem c1_witness :
    (∀ i ∈ ([10, 20, 40] : List ℤ), 0 ≤ i) ∧
    getNextAttempt [10, 20, 40] (0 : ℤ) none 5 = some 5 ∧
    getNextAttempt [10, 20, 40] (0 : ℤ) (some 15) 0 = some 30 ∧
    getNextAttempt [10, 20, 40] (0 : ℤ) (some 70) 0 = none :=
  ⟨by decide,
    (c1_getNextAttempt_characterization ℤ [10, 20, 40] 0 15 5 (by decide)).1,
    by decide,
    (c1_getNextAttempt_characterization ℤ [10, 20, 40] 0 70 0
      (by decide)).2.1.mpr (by decide)⟩

/-- C2: the rescan of `DeliveryQueue._loadState` on a directory holding one
message `msg_1` together with its metadata file `meta_1` (state
`("V0", 5, 7)`).  The metadata is loaded into `deliveryState`, but the
`meta_1` file is deleted from disk even though it is not an orphan,
because the `os.unlink` at ServerQueue.py line 480 sits outside the
`if not self.deliveryState.has_key(h)` orphan test. -/
theorem c2_loadState_failing_run :
    loadState 100 ⟨[(1, false)], [(1, ⟨5, some 7⟩)]⟩ =
      ⟨[(1, ⟨5, some 7⟩)], [(1, false)], []⟩ := by decide

/-- C3: `DeliveryQueue.removeExpiredMessages` on a queue whose `sendable`
list holds two consecutive expired handles `[1, 2]` (both with
`nextAttempt = None`).  Handle `1` is removed, which shifts handle `2`
into the iteration position just consumed, so the `for h in self.sendable`
loop skips it: handle `2` survives in `sendable` and in the queue although
its `nextAttempt` is `None`. -/
theorem c3_removeExpired_failing_run :
    removeExpiredMessages
        ⟨[1, 2], [], [], [1, 2], [(1, ⟨0, none⟩), (2, ⟨0, none⟩)],
         [(1, none), (2, none)]⟩ =
      some ⟨[2], [1], [], [2], [(2, ⟨0, none⟩)], [(2, none)]⟩ := by
  simp [removeExpiredMessages, removeExpiredLoop, removeMessage, lookupNA,
    List.erase, List.filter]

/-- C7 counterexample: a descriptor whose computed canonical digest is a
key of `validatedDigests` but whose declared `Digest` value differs is
rejected with `ConfigError("Invalid digest")` rather than accepted: the
declared-digest comparison (ServerInfo.py line 178) runs before the cache
lookup (line 182), so the claim as stated fails.  (SHA-1 is instantiated
with the identity on the hashed byte string.) -/
theorem c7_counterexample :
    serverInfoDigest (fun l => l) ['x'] ∈ [(['x', '\n'] : List Char)] ∧
    validate (fun l => l) (fun _ _ => none) [['x', '\n']] 0 ['x']
        ⟨"0.2", "Example", ⟨0, 256⟩, ['Z'], ['S'], 0, 0, 1, none, none, none,
          ⟨1, 256⟩⟩ none none = Except.error "Invalid digest" := by
  constructor
  · decide
  · rfl

/-- C7 (amended): validating a ServerInfo whose computed canonical digest
both equals the declared `Digest` value and is a key of the supplied
`validatedDigests` dict succeeds and marks the object validated, with no
signature check performed: the outcome is the same for every signature
checker `pkCheckSignature` and never consults the `Signature` value. -/
theorem c7_amended_validated_digest_cache (sha1 : List Char → List Char)
    (pkCheckSignature : List Char → PubKey → Option (List Char))
    (validatedDigests : List (List Char)) (now : ℚ) (contents : List Char)
    (server : ServerSection) (inMMTP : Option IncomingMMTPSection)
    (outMMTP : Option OutgoingMMTPSection)
    (hver : server.descriptorVersion = "0.2")
    (hdig : server.digest = serverInfoDigest sha1 contents)
    (hmem : validatedDigests.contains (serverInfoDigest sha1 contents) = true) :
    validate sha1 pkCheckSignature validatedDigests now contents server
      inMMTP outMMTP = Except.ok true := by
  simp [validate, hver, hdig, hmem]
  intro hnot
  exact absurd (by simpa using hmem) hnot

/-- Witness for C7: a descriptor identical to a cache-validated one except
for a corrupted `Signature` value passes validation via the digest cache,
even against a signature checker that rejects everything. -/
theorem c7_witness :
    (⟨"0.2", "Example", ⟨0, 256⟩, ['X', '\n'], "CORRUPTED".toList, 0, 0, 1,
        none, none, none, ⟨1, 256⟩⟩ : ServerSection).descriptorVersion =
      "0.2" ∧
    (⟨"0.2", "Example", ⟨0, 256⟩, ['X', '\n'], "CORRUPTED".toList, 0, 0, 1,
        none, none, none, ⟨1, 256⟩⟩ : ServerSection).digest =
      serverInfoDigest (fun l => l) ['X'] ∧
    [(['X', '\n'] : List Char)].contains (serverInfoDigest (fun l => l) ['X']) =
      true ∧
    validate (fun l => l) (fun _ _ => none) [['X', '\n']] 0 ['X']
        ⟨"0.2", "Example", ⟨0, 256⟩, ['X', '\n'], "CORRUPTED".toList, 0, 0, 1,
          none, none, none, ⟨1, 256⟩⟩ none none = Except.ok true :=
  ⟨rfl, by decide, by decide,
    c7_amended_validated_digest_cache (fun l => l) (fun _ _ => none)
      [['X', '\n']] 0 ['X'] _ none none rfl (by decide) (by decide)⟩

theorem supersededLoop_eq (self : SInfo) :
    ∀ (others : List SInfo) (valid : Set ℚ),
      supersededLoop self valid others =
        valid \ {t | ∃ o ∈ others, self.published < o.published ∧
          lowerNick o = lowerNick self ∧ t ∈ getIntervalSet o} := by
  intro others
  induction others with
  | nil =>
    intro valid
    simp only [supersededLoop]
    ext t
    simp
  | cons o rest ih =>
    intro valid
    simp only [supersededLoop]
    rw [ih]
    by_cases hc : self.published < o.published ∧ lowerNick o = lowerNick self
    · rw [if_pos hc]
      ext t
      simp only [Set.mem_diff, Set.mem_setOf_eq, List.mem_cons]
      constructor
      · rintro ⟨⟨htv, hto⟩, hrest⟩
        refine ⟨htv, ?_⟩
        rintro ⟨o', ho', hp, hn, hmem⟩
        rcases ho' with rfl | ho'
        · exact hto hmem
        · exact hrest ⟨o', ho', hp, hn, hmem⟩
      · rintro ⟨htv, hnone⟩
        refine ⟨⟨htv, fun hmem => hnone ⟨o, Or.inl rfl, hc.1, hc.2, hmem⟩⟩, ?_⟩
        rintro ⟨o', ho', hp, hn, hmem⟩
        exact hnone ⟨o', Or.inr ho', hp, hn, hmem⟩
    · rw [if_neg hc]
      ext t
      simp only [Set.mem_diff, Set.mem_setOf_eq, List.mem_cons]
      constructor
      · rintro ⟨htv, hrest⟩
        refine ⟨htv, ?_⟩
        rintro ⟨o', ho', hp, hn, hmem⟩
        rcases ho' with rfl | ho'
        · exact hc ⟨hp, hn⟩
        · exact hrest ⟨o', ho', hp, hn, hmem⟩
      · rintro ⟨htv, hnone⟩
        refine ⟨htv, ?_⟩
        rintro ⟨o', ho', hp, hn, hmem⟩
        exact hnone ⟨o', Or.inr ho', hp, hn, hmem⟩

/-- C8: `isSupersededBy` holds exactly when every time point of this
descriptor's closed validity interval `[Valid-After, Valid-Until]` lies in
the validity interval of some member of `others` that is strictly newer
(greater `Published`) and has the same lower-cased nickname. -/
theorem c8_isSupersededBy_iff_coverage (self : SInfo) (others : List SInfo) :
    isSupersededBy self others ↔
      ∀ t ∈ Set.Icc self.validAfter self.validUntil, ∃ o ∈ others,
        self.published < o.published ∧ lowerNick o = lowerNick self ∧
          t ∈ Set.Icc o.validAfter o.validUntil := by
  unfold isSupersededBy
  rw [supersededLoop_eq, Set.diff_eq_empty]
  unfold getIntervalSet
  constructor
  · intro hsub t ht
    exact hsub ht
  · intro h t ht
    exact h t ht

/-- C9 counterexample: at pool size 90 the source computes
`int(pool * self.sendRate)` in binary64 arithmetic, where
`90 * 0.7 = 62.99999999999999...`, so truncation gives 62 and
`_getBatchSize` returns `min(90 - 6, max(1, 62)) = 62`; the claim's
real-arithmetic formula `min(P - minPool, max(1, floor(P * 0.7)))`
gives `min(84, max(1, 63)) = 63`. -/
theorem c9_counterexample :
    getBatchSize 6 1 90 = 62 ∧ min (90 - 6) (max 1 (90 * 7 / 10)) = 63 := by
  decide

/-- C9 (amended): with `minPool=6, minSend=1, sendRate=0.7`,
`_getBatchSize` returns 0 when the pool holds fewer than
`minPool + minSend` messages, and otherwise
`min(P - minPool, max(1, q))` where `q = int(P * 0.7)` is computed in IEEE
binary64 arithmetic (which may fall one short of `floor(7P/10)`, e.g. at
`P = 90`); in particular `P=6` gives 0, `P=7` gives 1, `P=10` gives 4, and
`P=100` gives 70. -/
theorem c9_amended_batch_size (pool : Nat) :
    (pool < 7 → getBatchSize 6 1 pool = 0) ∧
    (7 ≤ pool → getBatchSize 6 1 pool =
      min (pool - 6) (max 1 (pyIntTimesSendRate pool))) ∧
    getBatchSize 6 1 6 = 0 ∧ getBatchSize 6 1 7 = 1 ∧
    getBatchSize 6 1 10 = 4 ∧ getBatchSize 6 1 100 = 70 := by
  refine ⟨?_, ?_, by decide, by decide, by decide, by decide⟩
  · intro h
    unfold getBatchSize
    rw [if_neg (by omega)]
  · intro h
    unfold getBatchSize
    rw [if_pos (by omega)]

/-- Witness for C9 at pool sizes 6 (below threshold) and 90 (above). -/
theorem c9_witness :
    (6 < 7 ∧ getBatchSize 6 1 6 = 0) ∧
    (7 ≤ 90 ∧ getBatchSize 6 1 90 =
      min (90 - 6) (max 1 (pyIntTimesSendRate 90))) :=
  ⟨⟨by decide, (c9_amended_batch_size 6).1 (by decide)⟩,
   ⟨by decide, (c9_amended_batch_size 90).2.1 (by decide)⟩⟩

/-- C10: `getCaps` returns the empty list whenever the `Incoming/MMTP`
section has no (truthy) `Version` value, regardless of the delivery
sections; otherwise it contains `mbox`, `smtp`, `relay` and `frag` exactly
for those of `Delivery/MBOX`, `Delivery/SMTP`, `Outgoing/MMTP` and
`Delivery/Fragmented` whose `Version` value is set. -/
theorem c10_getCaps_characterization (d : CapsView) :
    (optTruthy d.incomingMMTPVersion = false → getCaps d = []) ∧
    (optTruthy d.incomingMMTPVersion = true →
      (("mbox" ∈ getCaps d ↔ optTruthy d.deliveryMBOXVersion = true) ∧
       ("smtp" ∈ getCaps d ↔ optTruthy d.deliverySMTPVersion = true) ∧
       ("relay" ∈ getCaps d ↔ optTruthy d.outgoingMMTPVersion = true) ∧
       ("frag" ∈ getCaps d ↔ optTruthy d.deliveryFragmentedVersion = true))) := by
  constructor
  · intro h
    simp [getCaps, h]
  · intro h
    cases h1 : optTruthy d.deliveryMBOXVersion <;>
      cases h2 : optTruthy d.deliverySMTPVersion <;>
        cases h3 : optTruthy d.outgoingMMTPVersion <;>
          cases h4 : optTruthy d.deliveryFragmentedVersion <;>
            simp [getCaps, h, h1, h2, h3, h4]

/-- Witness for C10: with `Incoming/MMTP` present, `mbox` is advertised
exactly when `Delivery/MBOX` declares a version; with `Incoming/MMTP`
absent, no capability is advertised even though all delivery sections are
present. -/
theorem c10_witness :
    "mbox" ∈ getCaps ⟨some "0.1", none, some "0.1", none, none⟩ ∧
    getCaps ⟨none, some "0.1", some "0.1", some "0.1", some "0.1"⟩ = [] :=
  ⟨((c10_getCaps_characterization ⟨some "0.1", none, some "0.1", none,
      none⟩).2 (by decide)).1.mpr (by decide),
   (c10_getCaps_characterization ⟨none, some "0.1", some "0.1", some "0.1",
      some "0.1"⟩).1 (by decide)⟩

theorem stripTrail_append_ws (core : List Char) :
    ∀ w : List Char, (∀ c ∈ w, isWS c = true) →
      stripTrail (core ++ w) = stripTrail core := by
  intro w
  induction w using List.reverseRecOn with
  | nil => intro _; simp
  | append_singleton ws x ih =>
    intro h
    rw [← List.append_assoc]
    unfold stripTrail
    rw [List.rdropWhile_concat_pos isWS (core ++ ws) x (h x (by simp))]
    exact ih (fun c hc => h c (List.mem_append_left _ hc))

theorem trailingWSLineVariant_stripTrail (l1 l2 : List Char)
    (h : trailingWSLineVariant l1 l2) : stripTrail l1 = stripTrail l2 := by
  obtain ⟨core, w1, w2, hw1, hw2, rfl, rfl⟩ := h
  rw [stripTrail_append_ws core w1 hw1, stripTrail_append_ws core w2 hw2]

theorem forall₂_map_eq {α β : Type} {R : α → α → Prop} {f : α → β} :
    ∀ {as bs : List α}, List.Forall₂ R as bs →
      (∀ a b, R a b → f a = f b) → as.map f = bs.map f := by
  intro as bs h hf
  induction h with
  | nil => rfl
  | cons hr _ ih => simp [List.map_cons, hf _ _ hr, ih]

theorem wsVariant_clean (s t : List Char) (h : wsVariant s t) :
    cleanForDigest s = cleanForDigest t := by
  obtain ⟨hs, ht, hlines⟩ := h
  rw [cleanForDigest_eq_pipeline s, cleanForDigest_eq_pipeline t,
    normEndings_of_not_mem s hs, normEndings_of_not_mem t ht]
  have hmap : (splitLines s).map strip2 = (splitLines t).map strip2 := by
    apply forall₂_map_eq hlines
    intro a b hr
    unfold strip2
    rw [trailingWSLineVariant_stripTrail a b hr]
  rw [hmap]

theorem normEndings_append_noEol (X : List Char) :
    ∀ l0 : List Char, noEolChars l0 →
      normEndings (l0 ++ X) = l0 ++ normEndings X := by
  intro l0
  induction l0 with
  | nil => intro _; rfl
  | cons c l0' ih =>
    intro h
    have hc : c ≠ '\r' := (h c (by simp)).2
    rw [List.cons_append, normEndings_cons_ne c _ hc,
      ih (fun x hx => h x (List.mem_cons_of_mem c hx))]
    rfl

theorem normEndings_cr (X : List Char)
    (h : X = [] ∨ X.head? ≠ some '\n') :
    normEndings ('\r' :: X) = '\n' :: normEndings X := by
  cases X with
  | nil => rfl
  | cons d rest =>
    rcases h with h | h
    · exact absurd h (by simp)
    · have hd : d ≠ '\n' := by simpa using h
      exact normEndings_cr_cons d rest hd

theorem crOk_tail : ∀ (a : Eol × List Char) (rest : List (Eol × List Char)),
    crOk (a :: rest) → crOk rest := by
  intro a rest h
  obtain ⟨e, l⟩ := a
  cases rest with
  | nil => trivial
  | cons b rs =>
    obtain ⟨e', l'⟩ := b
    exact h.2

theorem normEndings_renderSegs :
    ∀ segs : List (Eol × List Char),
      (∀ seg ∈ segs, noEolChars (Prod.snd seg)) → crOk segs →
      normEndings (renderSegs segs) = normSegs segs := by
  intro segs
  induction segs with
  | nil => intro _ _; rfl
  | cons seg rest ih =>
    obtain ⟨e, l⟩ := seg
    intro hpieces hcr
    have hl : noEolChars l := hpieces (e, l) (by simp)
    have hrest : ∀ sg ∈ rest, noEolChars (Prod.snd sg) :=
      fun sg hsg => hpieces sg (List.mem_cons_of_mem _ hsg)
    have hcr' : crOk rest := crOk_tail _ _ hcr
    have hstep : normEndings (l ++ renderSegs rest) = l ++ normSegs rest := by
      rw [normEndings_append_noEol _ l hl, ih hrest hcr']
    cases e with
    | lf =>
      show normEndings (['\n'] ++ l ++ renderSegs rest) =
        '\n' :: (l ++ normSegs rest)
      rw [List.append_assoc]
      rw [show (['\n'] : List Char) ++ (l ++ renderSegs rest) =
        '\n' :: (l ++ renderSegs rest) from rfl]
      rw [normEndings_cons_ne '\n' _ (by decide), hstep]
    | crlf =>
      show normEndings (['\r', '\n'] ++ l ++ renderSegs rest) =
        '\n' :: (l ++ normSegs rest)
      rw [List.append_assoc]
      rw [show (['\r', '\n'] : List Char) ++ (l ++ renderSegs rest) =
        '\r' :: '\n' :: (l ++ renderSegs rest) from rfl]
      rw [show normEndings ('\r' :: '\n' :: (l ++ renderSegs rest)) =
        '\n' :: normEndings (l ++ renderSegs rest) from by
          simp [normEndings_cons₂], hstep]
    | cr =>
      show normEndings (['\r'] ++ l ++ renderSegs rest) =
        '\n' :: (l ++ normSegs rest)
      rw [List.append_assoc]
      rw [show (['\r'] : List Char) ++ (l ++ renderSegs rest) =
        '\r' :: (l ++ renderSegs rest) from rfl]
      have hhead : (l ++ renderSegs rest) = [] ∨
          (l ++ renderSegs rest).head? ≠ some '\n' := by
        cases l with
        | cons c l' =>
          right
          simp only [List.cons_append, List.head?_cons, ne_eq,
            Option.some.injEq]
          exact (hl c (by simp)).1
        | nil =>
          simp only [List.nil_append]
          cases hr : rest with
          | nil => left; rfl
          | cons b rs =>
            right
            obtain ⟨e', l'⟩ := b
            cases e' with
            | lf =>
              exfalso
              rw [hr] at hcr
              exact hcr.1 ⟨rfl, rfl, rfl⟩
            | cr => simp [renderSegs, Eol.render]
            | crlf => simp [renderSegs, Eol.render]
      rw [normEndings_cr _ hhead, hstep]

theorem normSegs_eq_of_map_snd :
    ∀ (segs1 segs2 : List (Eol × List Char)),
      segs1.map Prod.snd = segs2.map Prod.snd →
      normSegs segs1 = normSegs segs2 := by
  intro segs1
  induction segs1 with
  | nil =>
    intro segs2 h
    cases segs2 with
    | nil => rfl
    | cons b bs => simp at h
  | cons a as ih =>
    intro segs2 h
    cases segs2 with
    | nil => simp at h
    | cons b bs =>
      obtain ⟨e, l⟩ := a
      obtain ⟨e', l'⟩ := b
      simp only [List.map_cons, List.cons.injEq] at h
      show '\n' :: (l ++ normSegs as) = '\n' :: (l' ++ normSegs bs)
      rw [h.1, ih bs h.2]

theorem eolVariant_norm (s t : List Char) (h : eolVariant s t) :
    normEndings s = normEndings t := by
  obtain ⟨l0, segs1, segs2, hl0, hpieces1, hcr1, hcr2, hsnd, rfl, rfl⟩ := h
  have hpieces2 : ∀ sg ∈ segs2, noEolChars (Prod.snd sg) := by
    intro sg hsg
    have hmem : Prod.snd sg ∈ segs2.map Prod.snd := List.mem_map_of_mem _ hsg
    rw [← hsnd] at hmem
    rcases List.mem_map.1 hmem with ⟨sg1, hsg1, heq⟩
    rw [← heq]
    exact hpieces1 sg1 hsg1
  rw [normEndings_append_noEol _ l0 hl0, normEndings_append_noEol _ l0 hl0,
    normEndings_renderSegs segs1 hpieces1 hcr1,
    normEndings_renderSegs segs2 hpieces2 hcr2,
    normSegs_eq_of_map_snd segs1 segs2 hsnd]

theorem norm_append_nl (t : List Char) :
    normEndings (t ++ ['\n']) = normEndings t ++ ['\n'] ∨
      (t.getLast? = some '\r' ∧ normEndings (t ++ ['\n']) = normEndings t) := by
  induction t using normEndings.induct with
  | case1 => left; decide
  | case2 => right; exact ⟨rfl, by decide⟩
  | case3 c hc =>
    left
    rw [show ([c] ++ ['\n'] : List Char) = c :: '\n' :: [] from rfl,
      normEndings_cons₂, if_neg hc]
    simp [normEndings_single, hc]
  | case4 rest ih =>
    rw [show (('\r' :: '\n' :: rest) ++ ['\n'] : List Char) =
      '\r' :: '\n' :: (rest ++ ['\n']) from rfl]
    rw [show normEndings ('\r' :: '\n' :: (rest ++ ['\n'])) =
      '\n' :: normEndings (rest ++ ['\n']) from by simp [normEndings_cons₂]]
    rw [show normEndings ('\r' :: '\n' :: rest) =
      '\n' :: normEndings rest from by simp [normEndings_cons₂]]
    rcases ih with hL | ⟨hlast, hR⟩
    · left
      rw [hL]
      rfl
    · right
      refine ⟨?_, by rw [hR]⟩
      obtain ⟨x, xs, hx⟩ : ∃ x xs, rest = x :: xs := by
        cases rest with
        | nil => simp at hlast
        | cons x xs => exact ⟨x, xs, rfl⟩
      rw [hx, List.getLast?_cons_cons, List.getLast?_cons_cons, ← hx]
      exact hlast
  | case5 d rest hd ih =>
    rw [show (('\r' :: d :: rest) ++ ['\n'] : List Char) =
      '\r' :: ((d :: rest) ++ ['\n']) from rfl]
    rw [show ('\r' : Char) :: ((d :: rest) ++ ['\n']) =
      '\r' :: d :: (rest ++ ['\n']) from rfl]
    rw [normEndings_cr_cons d (rest ++ ['\n']) hd,
      normEndings_cr_cons d rest hd]
    rcases ih with hL | ⟨hlast, hR⟩
    · left
      rw [show (d :: (rest ++ ['\n']) : List Char) = (d :: rest) ++ ['\n']
        from rfl, hL]
      rfl
    · right
      refine ⟨?_, ?_⟩
      · rw [List.getLast?_cons_cons]
        exact hlast
      · rw [show (d :: (rest ++ ['\n']) : List Char) = (d :: rest) ++ ['\n']
          from rfl, hR]
  | case6 c d rest hc ih =>
    rw [show ((c :: d :: rest) ++ ['\n'] : List Char) =
      c :: ((d :: rest) ++ ['\n']) from rfl]
    rw [normEndings_cons_ne c _ hc, normEndings_cons_ne c _ hc]
    rcases ih with hL | ⟨hlast, hR⟩
    · left
      rw [hL]
      rfl
    · right
      refine ⟨?_, by rw [hR]⟩
      rw [List.getLast?_cons_cons]
      exact hlast

theorem joinLines_getLast?_nl :
    ∀ ps : List (List Char), (∀ p ∈ ps, '\n' ∉ p) →
      ((joinLines ps).getLast? = some '\n' ↔
        2 ≤ ps.length ∧ ps.getLast? = some []) := by
  intro ps
  induction ps with
  | nil =>
    intro _
    simp [joinLines_nil]
  | cons p ps' ih =>
    intro h
    cases ps' with
    | nil =>
      rw [joinLines_single]
      constructor
      · intro hlast
        exact absurd (List.mem_of_mem_getLast? hlast) (h p (by simp))
      · rintro ⟨hlen, _⟩
        simp at hlen
    | cons q qs =>
      rw [joinLines_cons_ne p (q :: qs) (by simp),
        List.getLast?_append_of_ne_nil p (by simp),
        List.getLast?_cons_cons]
      have hlen : 2 ≤ (p :: q :: qs).length := by
        simp [List.length_cons]
      by_cases hJ : joinLines (q :: qs) = []
      · rcases (joinLines_eq_nil_iff (q :: qs)).1 hJ with h' | h'
        · exact absurd h' (by simp)
        · obtain ⟨hq, hqs⟩ := List.cons.injEq q qs [] [] ▸ h'
          subst hq
          subst hqs
          rw [hJ]
          simp [hlen]
      · obtain ⟨x, xs, hx⟩ : ∃ x xs, joinLines (q :: qs) = x :: xs := by
          cases hJ' : joinLines (q :: qs) with
          | nil => exact absurd hJ' hJ
          | cons x xs => exact ⟨x, xs, rfl⟩
        rw [hx, List.getLast?_cons_cons, ← hx,
          ih (fun r hr => h r (List.mem_cons_of_mem p hr))]
        constructor
        · rintro ⟨_, h2⟩
          exact ⟨hlen, h2⟩
        · rintro ⟨_, h2⟩
          refine ⟨?_, h2⟩
          cases qs with
          | cons _ _ => simp [List.length_cons]
          | nil =>
            exfalso
            simp at h2
            exact hJ (by simp [joinLines_single, h2])

theorem strip2_splitLines_no_nl (u : List Char) :
    ∀ p ∈ (splitLines u).map strip2, '\n' ∉ p := by
  intro p hp hmem
  rcases List.mem_map.1 hp with ⟨q, hq, rfl⟩
  exact nl_not_mem_of_mem_splitLines _ q hq (mem_of_mem_strip2 _ _ hmem)

theorem strip2_splitLines_ne_nil (u : List Char) :
    (splitLines u).map strip2 ≠ [] := by
  intro hmap
  rw [List.map_eq_nil_iff] at hmap
  exact splitLines_ne_nil _ hmap

theorem dropFinalNL_clean (t : List Char) (hblank : lastLineBlank t = false) :
    cleanForDigest (t ++ ['\n']) = cleanForDigest t := by
  rcases norm_append_nl t with hA | ⟨_, hB⟩
  · rw [cleanForDigest_eq_pipeline (t ++ ['\n']), cleanForDigest_eq_pipeline t,
      hA, splitLines_append_nl, List.map_append,
      show ([([] : List Char)].map strip2) = [[]] from rfl,
      joinLines_append_single _ [] (strip2_splitLines_ne_nil (normEndings t)),
      if_pos (endsNL_append_nl (joinLines ((splitLines (normEndings t)).map
        strip2)))]
    have hend : ¬(endsNL (joinLines ((splitLines (normEndings t)).map strip2))
        = true) := by
      unfold endsNL
      simp only [beq_iff_eq]
      rw [joinLines_getLast?_nl _ (strip2_splitLines_no_nl (normEndings t))]
      rintro ⟨hlen, hlast⟩
      have hcontr : lastLineBlank t = true := by
        unfold lastLineBlank
        rw [Bool.and_eq_true, decide_eq_true_iff]
        constructor
        · rw [← List.length_map (splitLines (normEndings t)) strip2]
          exact hlen
        · rw [List.getLast?_map] at hlast
          rcases Option.map_eq_some'.1 hlast with ⟨y, hy, hsy⟩
          rw [List.getLastD_eq_getLast?, hy, Option.getD_some, hsy]
          rfl
      rw [hblank] at hcontr
      exact Bool.noConfusion hcontr
    rw [if_neg hend]
  · rw [cleanForDigest_eq_pipeline (t ++ ['\n']), cleanForDigest_eq_pipeline t,
      hB]

/-- C6 counterexample: dropping the final newline of the text
`"A: b\n\n"` (whose last line is empty) changes the canonical pre-hash
byte string from `"A: b\n\n"` to `"A: b\n"`, so the SHA-1 server-descriptor
digests of the two texts differ (shown here for SHA-1 instantiated as the
identity on the distinct hashed byte strings). -/
theorem c6_counterexample :
    (['A', ':', ' ', 'b', '\n', '\n'] : List Char) =
      ['A', ':', ' ', 'b', '\n'] ++ ['\n'] ∧
    serverInfoDigest (fun l => l) ['A', ':', ' ', 'b', '\n', '\n'] ≠
      serverInfoDigest (fun l => l) ['A', ':', ' ', 'b', '\n'] := by decide

/-- C6 (amended): the server-descriptor digest is unchanged by every
transformation that only (a) inserts or removes trailing whitespace on
lines, or (b) rewrites line endings among LF, CR and CRLF; and by (c)
dropping a final newline provided the remaining text does not end with a
blank (whitespace-only) final line. -/
theorem c6_amended_digest_stability (sha1 : List Char → List Char)
    (s t : List Char)
    (h : wsVariant s t ∨ eolVariant s t ∨
      (s = t ++ ['\n'] ∧ lastLineBlank t = false)) :
    serverInfoDigest sha1 s = serverInfoDigest sha1 t := by
  have hclean : cleanForDigest s = cleanForDigest t := by
    rcases h with h | h | ⟨rfl, hblank⟩
    · exact wsVariant_clean s t h
    · rw [cleanForDigest_eq_pipeline s, cleanForDigest_eq_pipeline t,
        eolVariant_norm s t h]
    · exact dropFinalNL_clean t hblank
  unfold serverInfoDigest serverDigestInput
  rw [hclean]

/-- Witness for C6: dropping the final newline of `"X\nZ\n"` (last line
`Z`, not blank) leaves the digest unchanged. -/
theorem c6_witness :
    ((['X', '\n', 'Z', '\n'] : List Char) = ['X', '\n', 'Z'] ++ ['\n'] ∧
      lastLineBlank ['X', '\n', 'Z'] = false) ∧
    serverInfoDigest (fun l => l) ['X', '\n', 'Z', '\n'] =
      serverInfoDigest (fun l => l) ['X', '\n', 'Z'] :=
  ⟨⟨by decide, by decide⟩,
    c6_amended_digest_stability (fun l => l) ['X', '\n', 'Z', '\n']
      ['X', '\n', 'Z'] (Or.inr (Or.inr ⟨by decide, by decide⟩))⟩
